import Mathlib

/-!
Verification of the gene-prediction core of `gpred.py` against its
natural-language specification.

The program is shallowly embedded: sequences are `List Char`, regex matching
over the three fixed patterns (start codon `AT[TG]|[ATCG]TG`, stop codon
`TA[GA]|TGA`, Shine-Dalgarno `A?G?GAGG|GGAG|GG.{1}GG`) is spelled out as
character tests following the backtracking engine's leftmost-match and
alternative-priority rules, `finditer` is embedded as a leftmost
non-overlapping match enumeration resuming at each match's end, and the
`while` loops are embedded with an explicit fuel parameter that provably
dominates the number of iterations (each loop strictly advances a cursor that
stays within the sequence, so `length + 1` bodies at most are ever executed).
-/

/-- Character at index `i` of `s`; the out-of-range default is a character that
occurs in no pattern, so reads are effectively bounds-checked (every matcher
also checks its bounds explicitly). -/
def nth (s : List Char) (i : Nat) : Char := s.getD i '*'

/-- First index `j` with `pos ≤ j < pos + fuel` and `q j = true`, scanning left
to right (the embedding of a regex engine's position scan). -/
def firstFrom (q : Nat → Bool) : Nat → Nat → Option Nat
  | _, 0 => none
  | pos, fuel + 1 => if q pos then some pos else firstFrom q (pos + 1) fuel

theorem firstFrom_eq_some_iff {q : Nat → Bool} :
    ∀ (fuel pos i : Nat), firstFrom q pos fuel = some i ↔
      pos ≤ i ∧ i < pos + fuel ∧ q i = true ∧ ∀ j, pos ≤ j → j < i → q j = false := by
  intro fuel
  induction fuel with
  | zero =>
    intro pos i
    constructor
    · intro h; simp [firstFrom] at h
    · rintro ⟨h1, h2, -, -⟩; exfalso; omega
  | succ n ih =>
    intro pos i
    rw [firstFrom]
    by_cases hq : q pos
    · rw [if_pos hq]
      constructor
      · intro h
        have hpi : pos = i := by injection h
        subst hpi
        exact ⟨Nat.le_refl _, by omega, hq, fun j h1 h2 => absurd h1 (by omega)⟩
      · rintro ⟨h1, h2, h3, h4⟩
        rcases Nat.eq_or_lt_of_le h1 with h | h
        · rw [h]
        · exact absurd hq (by simp [h4 pos (Nat.le_refl _) h])
    · rw [if_neg hq]
      rw [ih (pos + 1) i]
      constructor
      · rintro ⟨h1, h2, h3, h4⟩
        refine ⟨by omega, by omega, h3, fun j hj1 hj2 => ?_⟩
        rcases Nat.eq_or_lt_of_le hj1 with h | h
        · rw [← h]; exact Bool.of_not_eq_true hq
        · exact h4 j h hj2
      · rintro ⟨h1, h2, h3, h4⟩
        have hne : pos ≠ i := by
          intro h; subst h; exact hq h3
        exact ⟨by omega, by omega, h3, fun j hj1 hj2 => h4 j (by omega) hj2⟩

theorem firstFrom_eq_none_iff {q : Nat → Bool} :
    ∀ (fuel pos : Nat), firstFrom q pos fuel = none ↔
      ∀ j, pos ≤ j → j < pos + fuel → q j = false := by
  intro fuel
  induction fuel with
  | zero =>
    intro pos
    simp only [firstFrom]
    constructor
    · intro _ j h1 h2; exfalso; omega
    · intro _; trivial
  | succ n ih =>
    intro pos
    rw [firstFrom]
    by_cases hq : q pos
    · rw [if_pos hq]
      constructor
      · intro h; simp at h
      · intro h; exact absurd hq (by simp [h pos (Nat.le_refl _) (by omega)])
    · rw [if_neg hq]
      rw [ih (pos + 1)]
      constructor
      · intro h j hj1 hj2
        rcases Nat.eq_or_lt_of_le hj1 with he | he
        · rw [← he]; exact Bool.of_not_eq_true hq
        · exact h j he (by omega)
      · intro h j hj1 hj2
        exact h j (by omega) (by omega)

/-- Scanning may start past any stretch of indices known to fail the test. -/
theorem firstFrom_skip {q : Nat → Bool} {bound : Nat} :
    ∀ (k pos : Nat), (∀ j, pos ≤ j → j < pos + k → q j = false) →
      firstFrom q pos (bound - pos) = firstFrom q (pos + k) (bound - (pos + k)) := by
  intro k
  induction k with
  | zero => intro pos _; rfl
  | succ n ih =>
    intro pos h
    have h0 : q pos = false := h pos (Nat.le_refl _) (by omega)
    have step : firstFrom q pos (bound - pos) = firstFrom q (pos + 1) (bound - (pos + 1)) := by
      rcases Nat.lt_or_ge pos bound with hb | hb
      · have he : bound - pos = (bound - (pos + 1)) + 1 := by omega
        rw [he, firstFrom, h0]
        simp
      · have h1 : bound - pos = 0 := by omega
        have h2 : bound - (pos + 1) = 0 := by omega
        rw [h1, h2]
        rfl
    rw [step]
    have hrest : ∀ j, pos + 1 ≤ j → j < (pos + 1) + n → q j = false := by
      intro j hj1 hj2
      exact h j (by omega) (by omega)
    have := ih (pos + 1) hrest
    have harith : pos + 1 + n = pos + (n + 1) := by omega
    rw [harith] at this
    exact this

/-- Offset `i` begins a stop-codon match (`TA[GA]|TGA`, i.e. `TAG`, `TAA` or
`TGA`) lying wholly inside `s` (embeds `stop_regex`, gpred.py line 243). -/
def stopMatchAt (s : List Char) (i : Nat) : Bool :=
  decide (i + 3 ≤ s.length) &&
    ((nth s i == 'T' && nth s (i + 1) == 'A' &&
        (nth s (i + 2) == 'G' || nth s (i + 2) == 'A')) ||
     (nth s i == 'T' && nth s (i + 1) == 'G' && nth s (i + 2) == 'A'))

/-- Two stop-codon matches can never overlap: a stop codon's second and third
characters are never `T`, while every stop codon starts with `T`.  This is why
`finditer`'s non-overlapping enumeration misses no stop-codon occurrence. -/
theorem stopMatchAt_no_overlap {s : List Char} {p : Nat} (h : stopMatchAt s p = true) :
    stopMatchAt s (p + 1) = false ∧ stopMatchAt s (p + 2) = false := by
  simp only [stopMatchAt, Bool.and_eq_true, Bool.or_eq_true, beq_iff_eq,
    decide_eq_true_eq] at h
  obtain ⟨hlen, hpat⟩ := h
  have h1 : nth s (p + 1) = 'A' ∨ nth s (p + 1) = 'G' := by
    rcases hpat with ⟨⟨-, h⟩, -⟩ | ⟨⟨-, h⟩, -⟩
    · exact Or.inl h
    · exact Or.inr h
  have h2 : nth s (p + 2) = 'G' ∨ nth s (p + 2) = 'A' := by
    rcases hpat with ⟨-, h⟩ | ⟨-, h⟩
    · exact h
    · exact Or.inr h
  constructor
  · rw [Bool.eq_false_iff]
    intro hcon
    simp only [stopMatchAt, Bool.and_eq_true, Bool.or_eq_true, beq_iff_eq,
      decide_eq_true_eq] at hcon
    have hT : nth s (p + 1) = 'T' := by
      rcases hcon.2 with ⟨⟨h, -⟩, -⟩ | ⟨⟨h, -⟩, -⟩ <;> exact h
    rcases h1 with h | h <;> rw [h] at hT <;> exact absurd hT (by decide)
  · rw [Bool.eq_false_iff]
    intro hcon
    simp only [stopMatchAt, Bool.and_eq_true, Bool.or_eq_true, beq_iff_eq,
      decide_eq_true_eq] at hcon
    have hT : nth s (p + 2) = 'T' := by
      rcases hcon.2 with ⟨⟨h, -⟩, -⟩ | ⟨⟨h, -⟩, -⟩ <;> exact h
    rcases h2 with h | h <;> rw [h] at hT <;> exact absurd hT (by decide)

/-- The chain of `finditer` steps inside `find_stop` (gpred.py lines 111-116):
repeatedly take the leftmost stop-codon match at or after `pos`, return it if
it lies in reading frame `r`, otherwise resume just past the 3-character match.
Each step advances `pos` by at least 3, so `s.length + 1` steps of fuel are
never exhausted before the scan reaches the end of the sequence. -/
def findStopLoop (s : List Char) (r : Nat) : Nat → Nat → Option Nat
  | _, 0 => none
  | pos, fuel + 1 =>
    match firstFrom (stopMatchAt s) pos (s.length - pos) with
    | none => none
    | some p => if p % 3 = r then some p else findStopLoop s r (p + 3) fuel

/-- Embedding of `find_stop` (gpred.py lines 107-117): scan the stop-codon
matches of `finditer(sequence, start)` and return the first one whose offset
shares `start`'s reading frame. -/
def find_stop (s : List Char) (start : Nat) : Option Nat :=
  findStopLoop s (start % 3) start (s.length + 1)

/-- Claim-side Stop Locator, following the wording of spec section 4.3 and of
the claim: the offset of the first stop-codon-pattern occurrence at or after
`start` whose offset modulo 3 equals `start` modulo 3, scanning every position
up to the end of the sequence. -/
def findStopSpec (s : List Char) (start : Nat) : Option Nat :=
  firstFrom (fun i => stopMatchAt s i && decide (i % 3 = start % 3)) start (s.length - start)

theorem findStopLoop_eq_spec {s : List Char} {r : Nat} :
    ∀ (fuel pos : Nat), s.length ≤ pos + 3 * fuel →
      findStopLoop s r pos fuel =
        firstFrom (fun i => stopMatchAt s i && decide (i % 3 = r)) pos (s.length - pos) := by
  intro fuel
  induction fuel with
  | zero =>
    intro pos hf
    have h0 : s.length - pos = 0 := by omega
    rw [h0]
    rfl
  | succ n ih =>
    intro pos hf
    rw [findStopLoop]
    rcases hm : firstFrom (stopMatchAt s) pos (s.length - pos) with - | p
    · rw [firstFrom_eq_none_iff] at hm
      rw [eq_comm, firstFrom_eq_none_iff]
      intro j hj1 hj2
      rw [hm j hj1 hj2]
      rfl
    · rw [firstFrom_eq_some_iff] at hm
      obtain ⟨hm1, hm2, hm3, hm4⟩ := hm
      change (if p % 3 = r then some p else findStopLoop s r (p + 3) n) = _
      by_cases hr : p % 3 = r
      · rw [if_pos hr, eq_comm, firstFrom_eq_some_iff]
        refine ⟨hm1, hm2, by simp [hm3, hr], fun j hj1 hj2 => ?_⟩
        rw [hm4 j hj1 hj2]
        rfl
      · rw [if_neg hr]
        obtain ⟨hov1, hov2⟩ := stopMatchAt_no_overlap hm3
        have hskip : ∀ j, pos ≤ j → j < pos + (p + 3 - pos) →
            (stopMatchAt s j && decide (j % 3 = r)) = false := by
          intro j hj1 hj2
          rcases Nat.lt_or_ge j p with hj | hj
          · rw [hm4 j hj1 hj]; rfl
          · rcases Nat.eq_or_lt_of_le hj with he | hlt
            · subst he
              simp [hm3, hr]
            · have : j = p + 1 ∨ j = p + 2 := by omega
              rcases this with he | he <;> rw [he]
              · rw [hov1]; rfl
              · rw [hov2]; rfl
        have hstep := @firstFrom_skip _ (s.length) (p + 3 - pos) pos hskip
        have harith : pos + (p + 3 - pos) = p + 3 := by omega
        rw [harith] at hstep
        rw [hstep, ih (p + 3) (by omega)]

/-- Whatever `find_stop`'s loop returns lies at or after the scan start, in
reading frame `r`, and begins an in-bounds stop-codon match. -/
theorem findStopLoop_some {s : List Char} {r : Nat} :
    ∀ (fuel pos p : Nat), findStopLoop s r pos fuel = some p →
      pos ≤ p ∧ p % 3 = r ∧ stopMatchAt s p = true := by
  intro fuel
  induction fuel with
  | zero => intro pos p h; simp [findStopLoop] at h
  | succ n ih =>
    intro pos p h
    rw [findStopLoop] at h
    rcases hm : firstFrom (stopMatchAt s) pos (s.length - pos) with - | q
    · rw [hm] at h; simp at h
    · rw [hm] at h
      rw [firstFrom_eq_some_iff] at hm
      obtain ⟨hm1, -, hm3, -⟩ := hm
      change (if q % 3 = r then some q else findStopLoop s r (q + 3) n) = some p at h
      by_cases hr : q % 3 = r
      · rw [if_pos hr] at h
        have : q = p := by injection h
        subst this
        exact ⟨hm1, hr, hm3⟩
      · rw [if_neg hr] at h
        obtain ⟨h1, h2, h3⟩ := ih (q + 3) p h
        exact ⟨by omega, h2, h3⟩

theorem find_stop_some {s : List Char} {start p : Nat} (h : find_stop s start = some p) :
    start ≤ p ∧ p % 3 = start % 3 ∧ p + 3 ≤ s.length := by
  obtain ⟨h1, h2, h3⟩ := findStopLoop_some _ _ _ h
  simp only [stopMatchAt, Bool.and_eq_true, decide_eq_true_eq] at h3
  exact ⟨h1, h2, h3.1⟩

/-- C3: `find_stop` returns the offset of the first stop-codon-pattern match at
or after `start` whose offset modulo 3 equals `start` modulo 3, and `none`
exactly when no such in-frame occurrence exists before the end of the
sequence; earlier stop matches in other frames are skipped, not missed. -/
theorem find_stop_eq_findStopSpec (s : List Char) (start : Nat) :
    find_stop s start = findStopSpec s start := by
  unfold find_stop findStopSpec
  exact findStopLoop_eq_spec (s.length + 1) start (by omega)

/-- Offset `i` begins a start-codon match (`AT[TG]|[ATCG]TG`) that fits in `s`
and ends at or before the search bound `b` (embeds `start_regex`, line 242;
`b` plays the role of the `endpos` given to `Regex.search`). -/
def startMatchAt (s : List Char) (b i : Nat) : Bool :=
  decide (i + 3 ≤ b) && decide (i + 3 ≤ s.length) &&
    ((nth s i == 'A' && nth s (i + 1) == 'T' &&
        (nth s (i + 2) == 'T' || nth s (i + 2) == 'G')) ||
     ((nth s i == 'A' || nth s i == 'T' || nth s i == 'C' || nth s i == 'G') &&
        nth s (i + 1) == 'T' && nth s (i + 2) == 'G'))

/-- Embedding of `find_start` (gpred.py lines 97-104): offset of the leftmost
start-codon match lying within `[a, b)`, or `none`. -/
def find_start (s : List Char) (a b : Nat) : Option Nat :=
  firstFrom (startMatchAt s b) a (b - a)

theorem find_start_some {s : List Char} {a b i : Nat} (h : find_start s a b = some i) :
    a ≤ i ∧ i + 3 ≤ b ∧ i + 3 ≤ s.length := by
  unfold find_start at h
  rw [firstFrom_eq_some_iff] at h
  obtain ⟨h1, -, h3, -⟩ := h
  simp only [startMatchAt, Bool.and_eq_true, decide_eq_true_eq] at h3
  exact ⟨h1, h3.1.1, h3.1.2⟩

/-- Backtracking match attempt of the Shine-Dalgarno regex
`A?G?GAGG|GGAG|GG.{1}GG` (gpred.py line 246) at position `i` of `s`, with the
string truncated at `lim` (the engine's `endpos`); returns the end offset of
the match the engine reports.  The branches appear in the engine's priority
order: the first alternative with its greedy optionals (`AGGAGG`, `AGAGG`,
`GGAGG`, `GAGG`), then `GGAG`, then `GG.GG` (`.` is any character except a
newline). -/
def shineMatchEnd (s : List Char) (lim i : Nat) : Option Nat :=
  if decide (i + 6 ≤ lim) && (nth s i == 'A' && nth s (i + 1) == 'G' && nth s (i + 2) == 'G'
      && nth s (i + 3) == 'A' && nth s (i + 4) == 'G' && nth s (i + 5) == 'G') then some (i + 6)
  else if decide (i + 5 ≤ lim) && (nth s i == 'A' && nth s (i + 1) == 'G' && nth s (i + 2) == 'A'
      && nth s (i + 3) == 'G' && nth s (i + 4) == 'G') then some (i + 5)
  else if decide (i + 5 ≤ lim) && (nth s i == 'G' && nth s (i + 1) == 'G' && nth s (i + 2) == 'A'
      && nth s (i + 3) == 'G' && nth s (i + 4) == 'G') then some (i + 5)
  else if decide (i + 4 ≤ lim) && (nth s i == 'G' && nth s (i + 1) == 'A' && nth s (i + 2) == 'G'
      && nth s (i + 3) == 'G') then some (i + 4)
  else if decide (i + 4 ≤ lim) && (nth s i == 'G' && nth s (i + 1) == 'G' && nth s (i + 2) == 'A'
      && nth s (i + 3) == 'G') then some (i + 4)
  else if decide (i + 5 ≤ lim) && (nth s i == 'G' && nth s (i + 1) == 'G'
      && !(nth s (i + 2) == '\n') && nth s (i + 3) == 'G' && nth s (i + 4) == 'G') then
    some (i + 5)
  else none

/-- Leftmost match of a positional matcher `f` at or after `pos`, as a
`(start, end)` pair, scanning at most `fuel` positions. -/
def firstMatch (f : Nat → Option Nat) : Nat → Nat → Option (Nat × Nat)
  | _, 0 => none
  | pos, fuel + 1 =>
    match f pos with
    | some e => some (pos, e)
    | none => firstMatch f (pos + 1) fuel

/-- The `(start, end)` pairs produced by `finditer` for the Shine-Dalgarno
regex: leftmost matches, non-overlapping, each subsequent search resuming at
the previous match's end.  Matches are at least 4 characters long, so fuel
`lim + 1` is never exhausted before the truncated string is consumed. -/
def shineIter (s : List Char) (lim : Nat) : Nat → Nat → List (Nat × Nat)
  | _, 0 => []
  | pos, fuel + 1 =>
    match firstMatch (shineMatchEnd s lim) pos (lim + 1 - pos) with
    | none => []
    | some (i, e) => (i, e) :: shineIter s lim e fuel

/-- Match list of `shine_regex.finditer(sequence, a, b)`: matches lie within
`[a, b)` with the string truncated at `b` (clamped to the sequence length,
as Python clamps `endpos`). -/
def shine_finditer (s : List Char) (a b : Nat) : List (Nat × Nat) :=
  shineIter s (min b s.length) a (min b s.length + 1)

/-- Embedding of `has_shine_dalgarno` (gpred.py lines 120-139): walk the
`finditer` matches of the window `[max(start - d, 0), start)` in order and
report whether one ends more than 6 bases before `start` (`List.any`
short-circuits at the first success exactly like the `for`/`return True`
loop). -/
def has_shine_dalgarno (s : List Char) (start d : Nat) : Bool :=
  let window_start := max (start - d) 0
  (shine_finditer s window_start start).any (fun m => decide (6 < start - m.2))

/-- A word of the Shine-Dalgarno regex language, overlapping occurrences of
which the claim counts as candidate matches: `AGGAGG`, `AGAGG`, `GGAGG`,
`GAGG`, `GGAG`, or `GG?GG` with any non-newline middle character. -/
def isShineWord (w : List Char) : Bool :=
  decide (w = "AGGAGG".toList) || decide (w = "AGAGG".toList) || decide (w = "GGAGG".toList) ||
  decide (w = "GAGG".toList) || decide (w = "GGAG".toList) ||
  (decide (w.length = 5) && (nth w 0 == 'G' && nth w 1 == 'G' && !(nth w 2 == '\n')
    && nth w 3 == 'G' && nth w 4 == 'G'))

/-- Claim-side Motif Detector, following C2's wording: some occurrence of the
Shine-Dalgarno pattern — overlapping occurrences included — lies in the window
`[max(start - d, 0), start)` and ends more than 6 bases before `start`. -/
def shineClaimFound (s : List Char) (start d : Nat) : Bool :=
  let ws := max (start - d) 0
  (List.range (start + 1)).any (fun i =>
    (List.range (start + 1)).any (fun e =>
      decide (ws ≤ i) && decide (e ≤ start) && isShineWord ((s.drop i).take (e - i)) &&
        decide (6 < start - e)))

/-- Body of the `predict_genes` while-loop (gpred.py lines 150-176), with the
cursor `start` as explicit state.  Every iteration strictly increases the
cursor (rejections move to the found start plus one, acceptances past the stop
codon plus the gap) and the loop body only runs while `start + G ≤ s.length`,
so at most `s.length + 1` iterations ever execute and the `s.length + 1` fuel
supplied by `predict_genes` is never exhausted before the loop exits. -/
def predictLoop (s : List Char) (L D G : Nat) : Nat → Nat → List (Nat × Nat)
  | 0, _ => []
  | fuel + 1, start =>
    if start + G ≤ s.length then
      match find_start s start s.length with
      | none => []
      | some st =>
        match find_stop s st with
        | none => predictLoop s L D G fuel (st + 1)
        | some stp =>
          if stp - st + 1 ≤ L then predictLoop s L D G fuel (st + 1)
          else if has_shine_dalgarno s st D = false then predictLoop s L D G fuel (st + 1)
          else (st + 1, stp + 3) :: predictLoop s L D G fuel (stp + 3 + G)
    else []

/-- Embedding of `predict_genes` (gpred.py lines 142-176) with minimum gene
length `L`, maximum Shine-Dalgarno distance `D` and minimum gene gap `G`. -/
def predict_genes (s : List Char) (L D G : Nat) : List (Nat × Nat) :=
  predictLoop s L D G (s.length + 1) 0

/-- Every interval the scanner emits is `[a + 1, b + 3]` for a found start
offset `a` whose in-frame stop search returned `b`. -/
theorem predictLoop_mem {s : List Char} {L D G : Nat} :
    ∀ (fuel start : Nat) (p : Nat × Nat), p ∈ predictLoop s L D G fuel start →
      ∃ a b, p = (a + 1, b + 3) ∧ find_stop s a = some b := by
  intro fuel
  induction fuel with
  | zero => intro start p hp; simp [predictLoop] at hp
  | succ n ih =>
    intro start p hp
    rw [predictLoop] at hp
    split at hp
    · split at hp
      · simp at hp
      · rename_i st hfs
        split at hp
        · exact ih _ _ hp
        · rename_i stp hft
          split at hp
          · exact ih _ _ hp
          · split at hp
            · exact ih _ _ hp
            · rcases List.mem_cons.mp hp with h | h
              · exact ⟨st, stp, h, hft⟩
              · exact ih _ _ h
    · simp at hp

/-- C1 fails as stated: on this sequence the scanner accepts exactly the
interval `[14, 28]` (start offset 13, in-frame stop offset 25), and
`(14 - 1) % 3 = 1` while `(28 - 2) % 3 = 2`, so the claimed congruence
`(s - 1) % 3 = (e - 2) % 3` does not hold of an accepted interval. -/
theorem frame_claim_cx :
    predict_genes ("AGGAGGCCCCCCCATGAAAAAAAAATAA".toList) 10 16 5 = [(14, 28)] ∧
      ¬((14 - 1) % 3 = (28 - 2) % 3) := by
  constructor
  · decide
  · decide

/-- C1 (amended): every interval `[s, e]` returned by `predict_genes`
satisfies `(s - 1) % 3 = (e - 3) % 3` — the 0-based start offset and the
0-based offset of the stop codon's first base (`e - 3`, not `e - 2`) share a
reading frame. -/
theorem predict_genes_frame (s : List Char) (L D G : Nat) (p : Nat × Nat)
    (hp : p ∈ predict_genes s L D G) : (p.1 - 1) % 3 = (p.2 - 3) % 3 := by
  obtain ⟨a, b, rfl, hst⟩ := predictLoop_mem _ _ p hp
  obtain ⟨-, hfr, -⟩ := find_stop_some hst
  simp only [Nat.add_sub_cancel]
  omega

theorem predict_genes_frame_witness :
    (14, 28) ∈ predict_genes ("AGGAGGCCCCCCCATGAAAAAAAAATAA".toList) 10 16 5 ∧
      ((14 : Nat) - 1) % 3 = ((28 : Nat) - 3) % 3 :=
  ⟨by decide,
    predict_genes_frame ("AGGAGGCCCCCCCATGAAAAAAAAATAA".toList) 10 16 5 (14, 28) (by decide)⟩

/-- C10: every interval `[s, e]` returned by `predict_genes` spans a whole
number of codons: `e - s + 1` is a multiple of 3, because the stop offset is
locked to the start's reading frame and the reported end is the stop offset
plus 3. -/
theorem predict_genes_length_multiple (s : List Char) (L D G : Nat) (p : Nat × Nat)
    (hp : p ∈ predict_genes s L D G) : (p.2 - p.1 + 1) % 3 = 0 := by
  obtain ⟨a, b, rfl, hst⟩ := predictLoop_mem _ _ p hp
  obtain ⟨hab, hfr, -⟩ := find_stop_some hst
  simp only
  omega

theorem predict_genes_length_multiple_witness :
    (14, 28) ∈ predict_genes ("AGGAGGCCCCCCCATGAAAAAAAAATAA".toList) 10 16 5 ∧
      ((28 : Nat) - 14 + 1) % 3 = 0 :=
  ⟨by decide,
    predict_genes_length_multiple ("AGGAGGCCCCCCCATGAAAAAAAAATAA".toList) 10 16 5 (14, 28)
      (by decide)⟩

/-- C4: whenever the loop body runs (`c + G ≤ length`), the Start Locator
finds `a`, the in-frame stop search returns `b`, the candidate passes the
length check (`b - a + 1 > L`) and the motif check, then the scanner appends
exactly the 1-based interval `[a + 1, b + 3]` and resumes with the cursor at
`(b + 3) + G`. -/
theorem predictLoop_accept_step (s : List Char) (L D G fuel c a b : Nat)
    (h1 : c + G ≤ s.length) (h2 : find_start s c s.length = some a)
    (h3 : find_stop s a = some b) (h4 : L < b - a + 1)
    (h5 : has_shine_dalgarno s a D = true) :
    predictLoop s L D G (fuel + 1) c = (a + 1, b + 3) :: predictLoop s L D G fuel (b + 3 + G) := by
  rw [predictLoop, if_pos h1]
  simp only [h2, h3]
  rw [if_neg (by omega), if_neg (by simp [h5])]

theorem predictLoop_accept_step_witness :
    (0 : Nat) + 5 ≤ ("AGGAGGCCCCCCCATGAAAAAAAAATAA".toList).length ∧
    find_start ("AGGAGGCCCCCCCATGAAAAAAAAATAA".toList) 0
      ("AGGAGGCCCCCCCATGAAAAAAAAATAA".toList).length = some 13 ∧
    find_stop ("AGGAGGCCCCCCCATGAAAAAAAAATAA".toList) 13 = some 25 ∧
    (10 : Nat) < 25 - 13 + 1 ∧
    has_shine_dalgarno ("AGGAGGCCCCCCCATGAAAAAAAAATAA".toList) 13 16 = true ∧
    predictLoop ("AGGAGGCCCCCCCATGAAAAAAAAATAA".toList) 10 16 5 28 0 =
      (14, 28) :: predictLoop ("AGGAGGCCCCCCCATGAAAAAAAAATAA".toList) 10 16 5 27 33 :=
  ⟨by decide, by decide, by decide, by decide, by decide,
    predictLoop_accept_step ("AGGAGGCCCCCCCATGAAAAAAAAATAA".toList) 10 16 5 27 0 13 25
      (by decide) (by decide) (by decide) (by decide) (by decide)⟩

/-- C9: on the constructed boundary-case sequence with minimum gene length 10,
Shine-Dalgarno distance 16 and minimum gap 5, the scanner accepts no gene: the
start at offset 0 has no upstream room for a motif and no later start-codon
match exists. -/
theorem predict_genes_concrete_scenario :
    predict_genes
      ("ATGAAAAAAAAAAAAAAAAAAAAAAAAAAAAAAAAAAAAAAAAAAAAAAAAAATAAGGAGG".toList)
      10 16 5 = [] := by
  decide

/-- The cursor value `predict_genes`'s loop uses for its next iteration after
one execution of the body at cursor `start` (gpred.py lines 152-175), or
`none` when the body breaks out of the loop: rejections (no stop, too short,
no motif) resume at the found start offset plus one, an acceptance at the
accepted interval's last base `stp + 3` plus the minimum gap `G`. -/
def nextCursor (s : List Char) (L D G start : Nat) : Option Nat :=
  match find_start s start s.length with
  | none => none
  | some st =>
    match find_stop s st with
    | none => some (st + 1)
    | some stp =>
      if stp - st + 1 <= L then some (st + 1)
      else if has_shine_dalgarno s st D = false then some (st + 1)
      else some (stp + 3 + G)

/-- The successive values of the scan cursor at which `predict_genes`'s loop
invokes the Start Locator (`find_start`), for one strand's scan: the loop of
gpred.py lines 150-176 instrumented to record `start` at each `find_start`
call. -/
def cursorTraceLoop (s : List Char) (L D G : Nat) : Nat -> Nat -> List Nat
  | 0, _ => []
  | fuel + 1, start =>
    if start + G <= s.length then
      start ::
        (match nextCursor s L D G start with
        | none => []
        | some nx => cursorTraceLoop s L D G fuel nx)
    else []

/-- The full cursor trace of one strand's scan, starting from cursor 0. -/
def cursor_trace (s : List Char) (L D G : Nat) : List Nat :=
  cursorTraceLoop s L D G (s.length + 1) 0

theorem nextCursor_some_le {s : List Char} {L D G start nx : Nat}
    (h : nextCursor s L D G start = some nx) : start ≤ nx := by
  unfold nextCursor at h
  rcases hfs : find_start s start s.length with - | st
  · rw [hfs] at h; simp at h
  · rw [hfs] at h
    have hst := (find_start_some hfs).1
    change (match find_stop s st with
      | none => some (st + 1)
      | some stp =>
        if stp - st + 1 <= L then some (st + 1)
        else if has_shine_dalgarno s st D = false then some (st + 1)
        else some (stp + 3 + G)) = some nx at h
    rcases hft : find_stop s st with - | stp
    · rw [hft] at h
      have : st + 1 = nx := by injection h
      omega
    · rw [hft] at h
      have hsp := (find_stop_some hft).1
      change (if stp - st + 1 <= L then some (st + 1)
        else if has_shine_dalgarno s st D = false then some (st + 1)
        else some (stp + 3 + G)) = some nx at h
      by_cases hlen : stp - st + 1 <= L
      · rw [if_pos hlen] at h
        have : st + 1 = nx := by injection h
        omega
      · rw [if_neg hlen] at h
        by_cases hsd : has_shine_dalgarno s st D = false
        · rw [if_pos hsd] at h
          have : st + 1 = nx := by injection h
          omega
        · rw [if_neg hsd] at h
          have : stp + 3 + G = nx := by injection h
          omega

theorem cursorTraceLoop_head {s : List Char} {L D G : Nat} :
    ∀ (fuel start c : Nat), (cursorTraceLoop s L D G fuel start).head? = some c → c = start := by
  intro fuel start c h
  cases fuel with
  | zero => simp [cursorTraceLoop] at h
  | succ n =>
    rw [cursorTraceLoop] at h
    by_cases hc : start + G <= s.length
    · rw [if_pos hc] at h
      simp at h
      omega
    · rw [if_neg hc] at h
      simp at h

theorem cursorTraceLoop_chain {s : List Char} {L D G : Nat} :
    ∀ (fuel start : Nat), List.Chain' (· ≤ ·) (cursorTraceLoop s L D G fuel start) := by
  intro fuel
  induction fuel with
  | zero => intro start; simp [cursorTraceLoop]
  | succ n ih =>
    intro start
    rw [cursorTraceLoop]
    by_cases hc : start + G <= s.length
    · rw [if_pos hc]
      rcases hnx : nextCursor s L D G start with - | nx
      · show List.Chain' (· ≤ ·) [start]
        simp
      · show List.Chain' (· ≤ ·) (start :: cursorTraceLoop s L D G n nx)
        rw [List.chain'_cons']
        refine ⟨fun y hy => ?_, ih nx⟩
        have hy2 := cursorTraceLoop_head _ _ _ (Option.mem_def.mp hy)
        have := nextCursor_some_le hnx
        omega
    · rw [if_neg hc]
      simp

/-- C6: within one strand's scan the cursor value used for each successive
Start Locator call never decreases (each rejection moves it one past the
rejected start offset, each acceptance to the accepted interval's last base
plus the minimum gap — both at or beyond the previous cursor). -/
theorem cursor_trace_monotone (s : List Char) (L D G : Nat) :
    List.Chain' (· ≤ ·) (cursor_trace s L D G) :=
  cursorTraceLoop_chain (s.length + 1) 0

/-- C2 fails as stated: with sequence `GGAGGTTTTTT`, start 11 and distance 16,
the engine's only match in the window is `GGAGG` at `[0, 5)` (the first
alternative has priority and its end leaves only 6 bases of spacing), so
`has_shine_dalgarno` returns `false`; yet the overlapping occurrence `GGAG`
at `[0, 4)` ends 7 bases before the start, so a candidate match in the
claim's sense — overlapping occurrences included — does satisfy the spacing
constraint. -/
theorem shine_overlap_cx :
    has_shine_dalgarno ("GGAGGTTTTTT".toList) 11 16 = false ∧
      shineClaimFound ("GGAGGTTTTTT".toList) 11 16 = true := by
  constructor
  · decide
  · decide

/-- C2 (amended): `has_shine_dalgarno` returns `true` if and only if some
match in the `finditer` enumeration of the window `[max(start - d, 0), start)`
— leftmost, non-overlapping matches, each search resuming at the previous
match's end — ends more than 6 bases before `start`; the candidates are
evaluated in order, short-circuiting on the first that satisfies the spacing
constraint.  Overlapping occurrences skipped by `finditer` are not
evaluated. -/
theorem has_shine_dalgarno_iff_finditer (s : List Char) (start d : Nat) :
    has_shine_dalgarno s start d = true ↔
      ∃ m ∈ shine_finditer s (max (start - d) 0) start, 6 < start - m.2 := by
  simp [has_shine_dalgarno]

/-- Embedding of the base-pairing table of `reverse_complement` (gpred.py
line 216); in Python an unknown base raises a `KeyError`, modelled by
`none`. -/
def complement : Char -> Option Char
  | 'A' => some 'T'
  | 'C' => some 'G'
  | 'G' => some 'C'
  | 'T' => some 'A'
  | _ => none

/-- Complement every character of a list in order, failing on any unknown
base (the list comprehension of gpred.py line 217). -/
def complementAll : List Char -> Option (List Char)
  | [] => some []
  | c :: cs => do
    let c2 <- complement c
    let rest <- complementAll cs
    pure (c2 :: rest)

/-- Embedding of `reverse_complement` (gpred.py lines 214-217): reverse the
sequence, then complement each base. -/
def reverse_complement (s : List Char) : Option (List Char) :=
  complementAll s.reverse

/-- Python's ascending comparison on the 2-element lists `[start, stop]`:
lexicographic, start first, ties broken by stop. -/
def lexLe (a b : Nat × Nat) : Bool :=
  decide (a.1 < b.1) || (decide (a.1 = b.1) && decide (a.2 ≤ b.2))

/-- Embedding of the merge step of `main` (gpred.py lines 269-275): copy the
forward list, walk the reverse list backwards appending each interval `[a, b]`
as `[n - b, n - a]`, then sort ascending (Python's stable `list.sort`,
embedded as a stable merge sort under the same lexicographic order). -/
def merge_genes (n : Nat) (fwd rev : List (Nat × Nat)) : List (Nat × Nat) :=
  (fwd ++ rev.reverse.map (fun p => (n - p.2, n - p.1))).mergeSort lexLe

theorem lexLe_trans : ∀ (a b c : Nat × Nat), lexLe a b → lexLe b c → lexLe a c := by
  intro a b c hab hbc
  simp only [lexLe, Bool.or_eq_true, Bool.and_eq_true, decide_eq_true_eq] at hab hbc ⊢
  omega

theorem lexLe_total : ∀ (a b : Nat × Nat), lexLe a b || lexLe b a := by
  intro a b
  simp only [lexLe, Bool.or_eq_true, Bool.and_eq_true, decide_eq_true_eq]
  omega

/-- C5: for every reverse-strand interval `[s, e]` produced by the scanner on
the reverse complement of a sequence of length `n`, the merge step contributes
the transformed forward interval `[n - e, n - s]`; the final list is exactly
the forward intervals plus the transformed reverse intervals (as a
permutation, nothing added or dropped), sorted ascending by start coordinate
with ties broken by stop coordinate. -/
theorem merge_genes_spec (s sRc : List Char) (L D G : Nat)
    (h : reverse_complement s = some sRc) :
    (∀ p ∈ predict_genes sRc L D G,
        (s.length - p.2, s.length - p.1) ∈
          merge_genes s.length (predict_genes s L D G) (predict_genes sRc L D G)) ∧
    (merge_genes s.length (predict_genes s L D G) (predict_genes sRc L D G)).Perm
      (predict_genes s L D G ++
        (predict_genes sRc L D G).map (fun p => (s.length - p.2, s.length - p.1))) ∧
    List.Pairwise (fun a b => lexLe a b = true)
      (merge_genes s.length (predict_genes s L D G) (predict_genes sRc L D G)) := by
  have hperm : ∀ (n : Nat) (fwd rev : List (Nat × Nat)),
      (merge_genes n fwd rev).Perm (fwd ++ rev.map (fun p => (n - p.2, n - p.1))) := by
    intro n fwd rev
    unfold merge_genes
    refine (List.mergeSort_perm _ _).trans ?_
    exact List.Perm.append_left fwd ((List.reverse_perm rev).map _)
  refine ⟨?_, hperm _ _ _, ?_⟩
  · intro p hp
    refine (hperm s.length (predict_genes s L D G) (predict_genes sRc L D G)).mem_iff.mpr ?_
    exact List.mem_append_right _ (List.mem_map_of_mem _ hp)
  · exact List.sorted_mergeSort lexLe_trans lexLe_total _

theorem merge_genes_spec_witness :
    reverse_complement ("AC".toList) = some ("GT".toList) ∧
    ((∀ p ∈ predict_genes ("GT".toList) 50 16 40,
        (("AC".toList).length - p.2, ("AC".toList).length - p.1) ∈
          merge_genes ("AC".toList).length (predict_genes ("AC".toList) 50 16 40)
            (predict_genes ("GT".toList) 50 16 40)) ∧
    (merge_genes ("AC".toList).length (predict_genes ("AC".toList) 50 16 40)
        (predict_genes ("GT".toList) 50 16 40)).Perm
      (predict_genes ("AC".toList) 50 16 40 ++
        (predict_genes ("GT".toList) 50 16 40).map
          (fun p => (("AC".toList).length - p.2, ("AC".toList).length - p.1))) ∧
    List.Pairwise (fun a b => lexLe a b = true)
      (merge_genes ("AC".toList).length (predict_genes ("AC".toList) 50 16 40)
        (predict_genes ("GT".toList) 50 16 40))) :=
  ⟨by decide, merge_genes_spec ("AC".toList) ("GT".toList) 50 16 40 (by decide)⟩

/-- Embedding of Python's `str.replace` for single characters, as used in
`sequence.replace("U", "T")` (gpred.py line 253): a fresh string with every
occurrence of `a` replaced by `b`. -/
def pyReplace (s : List Char) (a b : Char) : List Char :=
  s.map (fun c => if c = a then b else c)

/-- The sequence `main` hands to both scanning passes (gpred.py lines
251-264): the substituted copy `sequence.replace("U", "T")` is computed but
its value is discarded — the original `sequence` is what `predict_genes` and
`reverse_complement` receive. -/
def main_sequence_for_scanning (sequence : List Char) : List Char :=
  let _discarded := pyReplace sequence 'U' 'T'
  sequence

/-- C7: the uracil-to-thymine substitution is never applied — the sequence
scanned by both the forward and the reverse-complement pass is
character-for-character the loaded sequence, and whenever the sequence
contains a `U` the scanned sequence really differs from what the substitution
would have produced. -/
theorem main_sequence_unsubstituted (sequence : List Char) :
    main_sequence_for_scanning sequence = sequence ∧
      ('U' ∈ sequence → main_sequence_for_scanning sequence ≠ pyReplace sequence 'U' 'T') := by
  refine ⟨rfl, fun hU heq => ?_⟩
  obtain ⟨i, hi, hgi⟩ := List.getElem_of_mem hU
  have h1 : sequence[i]? = (pyReplace sequence 'U' 'T')[i]? := by
    conv_lhs => rw [show sequence = pyReplace sequence 'U' 'T' from heq]
  rw [List.getElem?_eq_getElem hi] at h1
  rw [hgi] at h1
  unfold pyReplace at h1
  rw [List.getElem?_map, List.getElem?_eq_getElem hi, hgi] at h1
  simp at h1

theorem main_sequence_unsubstituted_witness :
    main_sequence_for_scanning ("AUG".toList) = "AUG".toList ∧
      ('U' ∈ "AUG".toList →
        main_sequence_for_scanning ("AUG".toList) ≠ pyReplace ("AUG".toList) 'U' 'T') :=
  main_sequence_unsubstituted ("AUG".toList)

/-- Python's default `str.strip` whitespace set (space, tab, newline,
carriage return, vertical tab, form feed). -/
def isPySpace (c : Char) : Bool :=
  c == ' ' || c == '\t' || c == '\n' || c == '\r' || c == '\u000B' || c == '\u000C'

/-- Embedding of `line.strip()`: drop leading and trailing whitespace. -/
def pyStrip (l : List Char) : List Char :=
  ((l.dropWhile isPySpace).reverse.dropWhile isPySpace).reverse

/-- Does the line start with `>` (Python's `line.startswith(">")`)? -/
def startsWithGT : List Char -> Bool
  | [] => false
  | c :: _ => c == '>'

/-- The accumulation loop of `read_fasta` (gpred.py lines 84-94): a header
line only sets the `getone` flag; any other line is stripped, upper-cased and
appended to the sequence.  After the loop the sequence is returned when a
header was seen, otherwise the run aborts (`sys.exit`, modelled as `none`). -/
def readFastaLoop : List (List Char) -> List Char -> Bool -> Option (List Char)
  | [], seq, getone => if getone then some seq else none
  | l :: ls, seq, getone =>
    if startsWithGT l then readFastaLoop ls seq true
    else readFastaLoop ls (seq ++ (pyStrip l).map Char.toUpper) getone

/-- Embedding of `read_fasta` (gpred.py lines 80-94) on the file's lines. -/
def read_fasta (lines : List (List Char)) : Option (List Char) :=
  readFastaLoop lines [] false

/-- C8 fails as stated: a file consisting of the single header line `>seq1`
has no parsable sequence content, yet `read_fasta` does not abort — it
returns the empty sequence to the scanning pipeline (which would then emit an
empty gene list). -/
theorem read_fasta_empty_cx : read_fasta [">seq1".toList] = some [] := by decide

theorem readFastaLoop_eq_none_iff :
    ∀ (ls : List (List Char)) (seq : List Char) (getone : Bool),
      readFastaLoop ls seq getone = none ↔
        getone = false ∧ ∀ l ∈ ls, startsWithGT l = false := by
  intro ls
  induction ls with
  | nil =>
    intro seq getone
    cases getone <;> simp [readFastaLoop]
  | cons l ls ih =>
    intro seq getone
    rw [readFastaLoop]
    by_cases hl : startsWithGT l
    · rw [if_pos hl]
      rw [ih]
      simp [hl]
    · rw [if_neg hl]
      rw [ih]
      simp [Bool.of_not_eq_true hl]

/-- C8 (amended): `read_fasta` aborts the run exactly when no line of the
input starts with `>`; when some header line is present it returns the
concatenated stripped upper-cased non-header content — which may be the empty
sequence (for a header-only file), and which the pipeline then scans. -/
theorem read_fasta_none_iff (lines : List (List Char)) :
    read_fasta lines = none ↔ ∀ l ∈ lines, startsWithGT l = false := by
  unfold read_fasta
  rw [readFastaLoop_eq_none_iff]
  simp
